import Mathlib

/-!
Shallow embedding of the related-notes discovery routine
(`searchRelatedNotes` in the service source) together with the string
primitives it uses, and theorems about its behaviour.

The vault is modelled as a directory listing (`Option (List String)`,
`none` when `fs.readdir` fails) plus a read function
`String → Option String` (`none` when `fs.readFile` of that name fails).
-/

namespace ObsidianService

/-- JS `s.toLowerCase()`: lower-case every character. -/
def jsToLower (s : String) : String :=
  ⟨s.data.map Char.toLower⟩

/-- Helper for JS `String.prototype.includes`: does `needle` occur as a
contiguous run inside the character list? -/
def includesAux (needle : List Char) : List Char → Bool
  | [] => needle.isEmpty
  | c :: rest => needle.isPrefixOf (c :: rest) || includesAux needle rest

/-- JS `s.includes(sub)`: substring containment. -/
def jsIncludes (s sub : String) : Bool :=
  includesAux sub.data s.data

/-- JS `s.endsWith(suffix)`. -/
def jsEndsWith (s suff : String) : Bool :=
  suff.data.isSuffixOf s.data

/-- Helper for JS `s.replace(pat, '')` with a plain (non-regex) pattern:
remove the first occurrence of `pat`, leave the list unchanged when `pat`
does not occur. -/
def removeFirstAux (pat : List Char) : List Char → List Char
  | [] => []
  | c :: rest =>
    if pat.isPrefixOf (c :: rest) then (c :: rest).drop pat.length
    else c :: removeFirstAux pat rest

/-- JS `s.replace(pat, '')` for a non-empty plain string pattern: deletes
the first occurrence of `pat` from `s`. -/
def jsReplaceDel (s pat : String) : String :=
  ⟨removeFirstAux pat.data s.data⟩

/-- The title pushed for a matching file: `file.replace('.md', '')` in the
source. -/
def noteTitle (file : String) : String :=
  jsReplaceDel file ".md"

/-- The source's per-candidate relevance check:
`fileContent.toLowerCase().includes(content.toLowerCase())`. -/
def matchesContent (content fileContent : String) : Bool :=
  jsIncludes (jsToLower fileContent) (jsToLower content)

/-- The source's loop filter:
`file.endsWith('.md') && file !== excludeTitle + '.md'`. -/
def isCandidate (excludeTitle file : String) : Bool :=
  jsEndsWith file ".md" && !(file == excludeTitle ++ ".md")

/-- The `for (const file of files)` loop of `searchRelatedNotes`, with the
accumulated `relatedNotes` passed explicitly.  A failing `fs.readFile`
(modelled by `readFile file = none`) rejects the promise, so the whole
call returns `none`.  After each candidate the source checks
`relatedNotes.length >= 2` and breaks. -/
def searchLoop (content excludeTitle : String) (readFile : String → Option String) :
    List String → List String → Option (List String)
  | [], relatedNotes => some relatedNotes
  | file :: rest, relatedNotes =>
    if isCandidate excludeTitle file then
      match readFile file with
      | none => none
      | some fileContent =>
        let acc := if matchesContent content fileContent
                   then relatedNotes ++ [noteTitle file]
                   else relatedNotes
        if 2 ≤ acc.length then some acc
        else searchLoop content excludeTitle readFile rest acc
    else
      searchLoop content excludeTitle readFile rest relatedNotes

/-- `searchRelatedNotes(content, excludeTitle)` from the source.
`readdir` is the result of `fs.readdir(VAULT_PATH)` (`none` when the vault
directory cannot be listed); `readFile` gives each file's content. -/
def searchRelatedNotes (content excludeTitle : String)
    (readdir : Option (List String)) (readFile : String → Option String) :
    Option (List String) :=
  match readdir with
  | none => none
  | some files => searchLoop content excludeTitle readFile files []

/-- The output of `searchLoop` never grows past length 2 when the
accumulator starts below 2. -/
theorem searchLoop_length_le (content excludeTitle : String)
    (readFile : String → Option String) :
    ∀ (files acc l : List String), acc.length < 2 →
      searchLoop content excludeTitle readFile files acc = some l →
      l.length ≤ 2 := by
  intro files
  induction files with
  | nil =>
    intro acc l hacc h
    simp only [searchLoop, Option.some.injEq] at h
    exact h ▸ Nat.le_of_lt hacc
  | cons file rest ih =>
    intro acc l hacc h
    by_cases hc : isCandidate excludeTitle file = true
    · cases hrf : readFile file with
      | none => simp [searchLoop, hc, hrf] at h
      | some fileContent =>
        by_cases hm : matchesContent content fileContent = true
        · simp only [searchLoop, hc, hrf, hm, if_true] at h
          by_cases h2 : 2 ≤ (acc ++ [noteTitle file]).length
          · rw [if_pos h2] at h
            cases h
            simp only [List.length_append, List.length_cons, List.length_nil]
            omega
          · rw [if_neg h2] at h
            refine ih (acc ++ [noteTitle file]) l ?_ h
            simp only [List.length_append, List.length_cons,
              List.length_nil] at h2 ⊢
            omega
        · simp only [searchLoop, hc, hrf, hm, if_true, Bool.false_eq_true,
            if_false] at h
          rw [if_neg (by omega : ¬ 2 ≤ acc.length)] at h
          exact ih acc l hacc h
    · simp only [searchLoop, hc, Bool.false_eq_true, if_false] at h
      exact ih acc l hacc h

/-- C3: for all inputs, whenever `searchRelatedNotes` succeeds with a
result list, that list has length at most the cap, 2. -/
theorem searchRelatedNotes_length_le_two
    (content excludeTitle : String) (readdir : Option (List String))
    (readFile : String → Option String) (l : List String)
    (h : searchRelatedNotes content excludeTitle readdir readFile = some l) :
    l.length ≤ 2 := by
  cases readdir with
  | none => exact absurd h (by simp [searchRelatedNotes])
  | some files =>
    exact searchLoop_length_le content excludeTitle readFile files [] l
      (by decide) h

theorem searchRelatedNotes_length_le_two_witness :
    (["a", "b"] : List String).length ≤ 2 :=
  searchRelatedNotes_length_le_two "x" "z"
    (some ["a.md", "b.md", "c.md", "d.md", "e.md"]) (fun _ => some "x")
    ["a", "b"] (by decide)

/-- C5: when listing the vault directory fails, the call fails (returns the
error, `none`); it does not produce an empty list or any other default. -/
theorem searchRelatedNotes_readdir_failure (content excludeTitle : String)
    (readFile : String → Option String) :
    searchRelatedNotes content excludeTitle none readFile = none ∧
      ∀ l : List String, searchRelatedNotes content excludeTitle none readFile ≠ some l :=
  ⟨rfl, fun _ h => Option.noConfusion h⟩

/-- `searchLoop` over files none of which pass the candidate filter
returns the accumulator unchanged. -/
theorem searchLoop_no_candidates (content excludeTitle : String)
    (readFile : String → Option String) :
    ∀ (files acc : List String),
      (∀ f ∈ files, isCandidate excludeTitle f = false) →
      searchLoop content excludeTitle readFile files acc = some acc := by
  intro files
  induction files with
  | nil => intro acc _; rfl
  | cons file rest ih =>
    intro acc h
    have hf : isCandidate excludeTitle file = false :=
      h file (List.mem_cons_self _ _)
    simp only [searchLoop, hf]
    simp only [Bool.false_eq_true, if_false]
    exact ih acc fun f hm => h f (List.mem_cons_of_mem _ hm)

/-- C8: a vault listing with zero qualifying note files (no entry ends in
`.md` other than the excluded title's file) yields the empty result. -/
theorem searchRelatedNotes_no_qualifying (content excludeTitle : String)
    (readFile : String → Option String) (files : List String)
    (h : ∀ f ∈ files, isCandidate excludeTitle f = false) :
    searchRelatedNotes content excludeTitle (some files) readFile = some [] :=
  searchLoop_no_candidates content excludeTitle readFile files [] h

theorem searchRelatedNotes_no_qualifying_witness :
    searchRelatedNotes "x" "b" (some ["a.txt", "b.md"]) (fun _ => some "x") =
      some [] :=
  searchRelatedNotes_no_qualifying "x" "b" (fun _ => some "x")
    ["a.txt", "b.md"] (by decide)

/-- Whether a file would pass the source's relevance check, reading its
content through `readFile` (`false` when the read fails). -/
def matchBool (content : String) (readFile : String → Option String)
    (file : String) : Bool :=
  match readFile file with
  | none => false
  | some fileContent => matchesContent content fileContent

/-- The titles of all candidate files whose content matches, in
directory-listing order (the full match set, before any cap). -/
def matchingTitles (content excludeTitle : String)
    (readFile : String → Option String) (files : List String) : List String :=
  (files.filter fun f =>
    isCandidate excludeTitle f && matchBool content readFile f).map noteTitle

/-- `searchLoop` returns the accumulator extended by matching titles, cut
off at 2, provided every candidate file is readable. -/
theorem searchLoop_eq_take (content excludeTitle : String)
    (readFile : String → Option String) :
    ∀ (files acc : List String), acc.length < 2 →
      (∀ f ∈ files, isCandidate excludeTitle f = true → readFile f ≠ none) →
      searchLoop content excludeTitle readFile files acc =
        some ((acc ++ matchingTitles content excludeTitle readFile files).take 2) := by
  intro files
  induction files with
  | nil =>
    intro acc hacc _
    simp [searchLoop, matchingTitles,
      List.take_of_length_le (Nat.le_of_lt hacc)]
  | cons file rest ih =>
    intro acc hacc hread
    have hrest : ∀ f ∈ rest, isCandidate excludeTitle f = true →
        readFile f ≠ none :=
      fun f hm => hread f (List.mem_cons_of_mem _ hm)
    by_cases hc : isCandidate excludeTitle file = true
    · cases hrf : readFile file with
      | none => exact absurd hrf (hread file (List.mem_cons_self _ _) hc)
      | some fileContent =>
        by_cases hm : matchesContent content fileContent = true
        · have hmt : matchingTitles content excludeTitle readFile (file :: rest) =
              noteTitle file :: matchingTitles content excludeTitle readFile rest := by
            simp [matchingTitles, List.filter_cons, hc, matchBool, hrf, hm]
          rw [hmt]
          by_cases h2 : 2 ≤ (acc ++ [noteTitle file]).length
          · have hlen : acc.length = 1 := by
              simp only [List.length_append, List.length_cons,
                List.length_nil] at h2
              omega
            obtain ⟨a, rfl⟩ := List.length_eq_one.mp hlen
            simp only [searchLoop, hc, hrf, hm, if_true]
            rw [if_pos h2]
            simp
          · have hlen : (acc ++ [noteTitle file]).length < 2 :=
              Nat.lt_of_not_le h2
            simp only [searchLoop, hc, hrf, hm, if_true]
            rw [if_neg h2, ih (acc ++ [noteTitle file]) hlen hrest]
            simp
        · have hmt : matchingTitles content excludeTitle readFile (file :: rest) =
              matchingTitles content excludeTitle readFile rest := by
            simp [matchingTitles, List.filter_cons, hc, matchBool, hrf, hm]
          rw [hmt]
          simp only [searchLoop, hc, hrf, hm, if_true, Bool.false_eq_true,
            if_false]
          rw [if_neg (by omega : ¬ 2 ≤ acc.length)]
          exact ih acc hacc hrest
    · have hmt : matchingTitles content excludeTitle readFile (file :: rest) =
          matchingTitles content excludeTitle readFile rest := by
        simp [matchingTitles, List.filter_cons, hc]
      rw [hmt]
      simp only [searchLoop, hc, Bool.false_eq_true, if_false]
      exact ih acc hacc hrest

/-- C2: when every candidate file is readable, the result is exactly the
first `min 2 (number of matches)` matching titles in directory-listing
order — `take 2` of the full match list, hence always a prefix of it. -/
theorem searchRelatedNotes_eq_take_two
    (content excludeTitle : String) (readFile : String → Option String)
    (files : List String)
    (hread : ∀ f ∈ files, isCandidate excludeTitle f = true → readFile f ≠ none) :
    searchRelatedNotes content excludeTitle (some files) readFile =
      some ((matchingTitles content excludeTitle readFile files).take 2) := by
  have h := searchLoop_eq_take content excludeTitle readFile files []
    (by decide) hread
  simpa [searchRelatedNotes] using h

theorem searchRelatedNotes_eq_take_two_witness :
    searchRelatedNotes "x" "z" (some ["a.md", "b.md", "c.md", "d.md", "e.md"])
        (fun _ => some "x") =
      some ((matchingTitles "x" "z" (fun _ => some "x")
        ["a.md", "b.md", "c.md", "d.md", "e.md"]).take 2) ∧
    matchingTitles "x" "z" (fun _ => some "x")
        ["a.md", "b.md", "c.md", "d.md", "e.md"] =
      ["a", "b", "c", "d", "e"] ∧
    (["a", "b", "c", "d", "e"].take 2 : List String) = ["a", "b"] :=
  ⟨searchRelatedNotes_eq_take_two "x" "z" (fun _ => some "x") _ (by decide),
    by decide, by decide⟩

/-- `includesAux` decides contiguous-substring occurrence. -/
theorem includesAux_iff (needle : List Char) :
    ∀ hay : List Char, includesAux needle hay = true ↔ needle <:+: hay := by
  intro hay
  induction hay with
  | nil => simp [includesAux, List.isEmpty_iff]
  | cons c rest ih =>
    simp [includesAux, ih, List.infix_cons_iff]

/-- `jsIncludes` decides contiguous-substring occurrence. -/
theorem jsIncludes_iff (s sub : String) :
    jsIncludes s sub = true ↔ sub.data <:+: s.data :=
  includesAux_iff sub.data s.data

/-- C1: a candidate file (one ending in `.md` and distinct from the
excluded title's file) is judged related exactly when the candidate's
lowercased content contains the lowercased input content as a literal
substring; in particular content "Hello World" matches a candidate
containing "hello world". -/
theorem searchRelatedNotes_match_iff
    (content excludeTitle file c : String) (readFile : String → Option String)
    (hc : isCandidate excludeTitle file = true)
    (hr : readFile file = some c) :
    (searchRelatedNotes content excludeTitle (some [file]) readFile =
        some [noteTitle file] ↔
      (jsToLower content).data <:+: (jsToLower c).data) ∧
    matchesContent "Hello World" "say hello world now" = true := by
  refine ⟨?_, by decide⟩
  have hres : searchRelatedNotes content excludeTitle (some [file]) readFile =
      some (if matchesContent content c = true then [noteTitle file] else []) := by
    by_cases hm : matchesContent content c = true
    · simp [searchRelatedNotes, searchLoop, hc, hr, hm]
    · simp [searchRelatedNotes, searchLoop, hc, hr, hm]
  rw [hres]
  by_cases hm : matchesContent content c = true
  · rw [if_pos hm]
    have hinf : (jsToLower content).data <:+: (jsToLower c).data :=
      (jsIncludes_iff (jsToLower c) (jsToLower content)).mp hm
    simp [hinf]
  · rw [if_neg hm]
    have hinf : ¬ (jsToLower content).data <:+: (jsToLower c).data :=
      fun h => hm ((jsIncludes_iff (jsToLower c) (jsToLower content)).mpr h)
    simp [hinf]

theorem searchRelatedNotes_match_iff_witness :
    (searchRelatedNotes "Hello World" "b" (some ["a.md"])
        (fun _ => some "say hello world now") = some [noteTitle "a.md"] ↔
      (jsToLower "Hello World").data <:+:
        (jsToLower "say hello world now").data) ∧
    matchesContent "Hello World" "say hello world now" = true :=
  searchRelatedNotes_match_iff "Hello World" "b" "a.md" "say hello world now"
    (fun _ => some "say hello world now") (by decide) rfl

/-- The empty needle occurs in every haystack (JS `includes('')`). -/
theorem includesAux_nil_left : ∀ hay : List Char, includesAux [] hay = true
  | [] => rfl
  | _ :: rest => by simp [includesAux, includesAux_nil_left rest]

/-- Empty input content passes the relevance check against any file. -/
theorem matchesContent_empty_left (c : String) : matchesContent "" c = true := by
  have : (jsToLower "").data = [] := rfl
  simp [matchesContent, jsIncludes, this, includesAux_nil_left]

/-- C10: with empty input content every readable candidate matches, so the
result is the titles of the first `min 2 n` qualifying files in
directory-listing order (the code does not enforce the spec's non-empty
content precondition). -/
theorem searchRelatedNotes_empty_content
    (excludeTitle : String) (readFile : String → Option String)
    (files : List String)
    (hread : ∀ f ∈ files, isCandidate excludeTitle f = true → readFile f ≠ none) :
    searchRelatedNotes "" excludeTitle (some files) readFile =
      some (((files.filter (isCandidate excludeTitle)).map noteTitle).take 2) := by
  have h := searchLoop_eq_take "" excludeTitle readFile files [] (by decide) hread
  rw [List.nil_append] at h
  have hfil : (files.filter fun f =>
      isCandidate excludeTitle f && matchBool "" readFile f) =
      files.filter (isCandidate excludeTitle) := by
    apply List.filter_congr
    intro f hf
    by_cases hc : isCandidate excludeTitle f = true
    · cases hrf : readFile f with
      | none => exact absurd hrf (hread f hf hc)
      | some c =>
        simp [hc, matchBool, hrf, matchesContent_empty_left]
    · simp only [Bool.not_eq_true] at hc
      simp [hc]
  rw [searchRelatedNotes, h, matchingTitles, hfil]

theorem searchRelatedNotes_empty_content_witness :
    searchRelatedNotes "" "c" (some ["a.md", "b.txt", "c.md", "d.md", "e.md"])
        (fun _ => some "anything") =
      some (((["a.md", "b.txt", "c.md", "d.md", "e.md"].filter
        (isCandidate "c")).map noteTitle).take 2) ∧
    (((["a.md", "b.txt", "c.md", "d.md", "e.md"].filter
        (isCandidate "c")).map noteTitle).take 2 : List String) = ["a", "d"] :=
  ⟨searchRelatedNotes_empty_content "c" (fun _ => some "anything") _ (by decide),
    by decide⟩

/-- C7 counterexample: with a single qualifying file whose read fails, the
call returns the error `none`; it does not succeed with the result an
all-non-matching scan would give (`some []`), so a failing read is not
treated like a non-matching candidate. -/
theorem searchRelatedNotes_read_failure_cex :
    searchRelatedNotes "x" "t" (some ["a.md"]) (fun _ => none) = none ∧
      (none : Option (List String)) ≠ some [] :=
  ⟨rfl, fun h => Option.noConfusion h⟩

/-- C7 amended: when reading a candidate note file fails, the whole scan
aborts and `searchRelatedNotes` propagates the failure to the caller,
rather than skipping the file and continuing. -/
theorem searchRelatedNotes_read_failure_aborts
    (content excludeTitle file : String) (rest : List String)
    (readFile : String → Option String)
    (hc : isCandidate excludeTitle file = true)
    (hr : readFile file = none) :
    searchRelatedNotes content excludeTitle (some (file :: rest)) readFile =
      none := by
  simp [searchRelatedNotes, searchLoop, hc, hr]

theorem searchRelatedNotes_read_failure_aborts_witness :
    searchRelatedNotes "x" "t" (some ["b.md", "c.md"]) (fun _ => none) =
      none :=
  searchRelatedNotes_read_failure_aborts "x" "t" "b.md" ["c.md"]
    (fun _ => none) (by decide) rfl

/-- The character list of the extension pattern `".md"`. -/
def mdChars : List Char := ['.', 'm', 'd']

theorem mdChars_eq : (".md").data = mdChars := rfl

/-- `".md"` has no self-overlap: if `".md" ++ post = t ++ ".md"` then
either both sides are exactly `".md"`, or `t` starts with `".md"` and
`post` ends with it. -/
theorem mdChars_overlap : ∀ (t post : List Char),
    mdChars ++ post = t ++ mdChars →
    (t = [] ∧ post = []) ∨ ∃ t₁, t = mdChars ++ t₁ ∧ post = t₁ ++ mdChars := by
  intro t post h
  match t with
  | [] =>
    left
    refine ⟨rfl, ?_⟩
    simpa [mdChars] using h
  | [a] =>
    exfalso
    simp [mdChars] at h
  | [a, b] =>
    exfalso
    simp [mdChars] at h
  | a :: b :: c :: t₁ =>
    right
    simp only [mdChars, List.cons_append, List.nil_append,
      List.cons.injEq] at h
    obtain ⟨ha, hb, hcc, hpost⟩ := h
    exact ⟨t₁, by simp [mdChars, ← ha, ← hb, ← hcc],
      by simpa [mdChars] using hpost⟩

/-- Removing the first `".md"` from a list that ends in `".md"` either
strips that trailing extension exactly, or leaves a `".md"` inside the
result. -/
theorem removeFirstAux_suffix_cases :
    ∀ l e : List Char, mdChars.isSuffixOf l = true →
      removeFirstAux mdChars l = e →
      l = e ++ mdChars ∨ mdChars <:+: e := by
  intro l
  induction l with
  | nil =>
    intro e hsuf _
    simp [mdChars] at hsuf
  | cons c rest ih =>
    intro e hsuf hrem
    rw [List.isSuffixOf_iff_suffix] at hsuf
    obtain ⟨g, hg⟩ := hsuf
    have hstep : removeFirstAux mdChars (c :: rest) =
        if mdChars.isPrefixOf (c :: rest) then (c :: rest).drop mdChars.length
        else c :: removeFirstAux mdChars rest := rfl
    by_cases hpb : mdChars.isPrefixOf (c :: rest) = true
    · obtain ⟨post, hpost⟩ := List.isPrefixOf_iff_prefix.mp hpb
      have hdrop : (c :: rest).drop mdChars.length = post := by
        rw [← hpost, List.drop_left]
      have he : e = post := by rw [← hrem, hstep, if_pos hpb, hdrop]
      have hover : mdChars ++ post = g ++ mdChars := hpost.trans hg.symm
      rcases mdChars_overlap g post hover with ⟨hgnil, hpnil⟩ | ⟨t₁, _, hpeq⟩
      · left
        rw [he, hpnil, List.nil_append, ← hg, hgnil, List.nil_append]
      · right
        rw [he, hpeq]
        exact ⟨t₁, [], by simp⟩
    · match g, hg with
      | [], hg =>
        rw [List.nil_append] at hg
        exact absurd (by rw [← hg, List.isPrefixOf_iff_prefix] :
          mdChars.isPrefixOf (c :: rest) = true) hpb
      | gh :: gt, hg =>
        have hrest : gt ++ mdChars = rest := by injection hg
        have hsuf2 : mdChars.isSuffixOf rest = true := by
          rw [List.isSuffixOf_iff_suffix, ← hrest]
          exact List.suffix_append gt mdChars
        have he : c :: removeFirstAux mdChars rest = e := by
          rw [← hrem, hstep, if_neg hpb]
        obtain ⟨e', he'⟩ : ∃ x, removeFirstAux mdChars rest = x := ⟨_, rfl⟩
        rw [he'] at he
        rcases ih e' hsuf2 he' with h1 | h2
        · left
          rw [← he, h1, List.cons_append]
        · right
          rw [← he]
          exact List.infix_cons h2

/-- When `".md"` does not occur in `t`, removing the first `".md"` from
`t ++ ".md"` removes exactly the trailing extension. -/
theorem removeFirstAux_append_self :
    ∀ t : List Char, ¬ mdChars <:+: t →
      removeFirstAux mdChars (t ++ mdChars) = t := by
  intro t
  induction t with
  | nil => intro _; rfl
  | cons c t' ih =>
    intro h
    have hstep : removeFirstAux mdChars ((c :: t') ++ mdChars) =
        if mdChars.isPrefixOf ((c :: t') ++ mdChars) then
          ((c :: t') ++ mdChars).drop mdChars.length
        else c :: removeFirstAux mdChars (t' ++ mdChars) := rfl
    by_cases hpb : mdChars.isPrefixOf ((c :: t') ++ mdChars) = true
    · exfalso
      obtain ⟨post, hpost⟩ := List.isPrefixOf_iff_prefix.mp hpb
      rcases mdChars_overlap (c :: t') post hpost with ⟨hnil, _⟩ | ⟨t₁, hteq, _⟩
      · exact List.noConfusion hnil
      · exact h ⟨[], t₁, by simpa using hteq.symm⟩
    · rw [hstep, if_neg hpb,
        ih fun hin => h ( List.infix_cons hin)]

/-- Title recovery as the spec words it: strip the trailing `".md"`
extension from the file name. -/
def stripTrailingMd (s : String) : String :=
  if (".md").data.isSuffixOf s.data then ⟨s.data.take (s.data.length - 3)⟩
  else s

/-- C6 counterexample: on the file name `"a.mdx.md"` (which contains
`".md"` before the extension), the code reports title `"ax.md"` — the
first occurrence of `".md"` removed — while stripping the trailing
`".md"` would give `"a.mdx"`. -/
theorem noteTitle_not_strip_cex :
    searchRelatedNotes "" "x" (some ["a.mdx.md"]) (fun _ => some "") =
      some ["ax.md"] ∧
    stripTrailingMd "a.mdx.md" = "a.mdx" ∧ ("ax.md" : String) ≠ "a.mdx" :=
  ⟨rfl, rfl, by decide⟩

/-- C6 amended: the reported title is the file name with the FIRST
occurrence of `".md"` deleted; whenever `".md"` occurs only as the
trailing extension, this coincides with stripping the trailing `".md"`. -/
theorem noteTitle_strips_extension (t : String)
    (h : ¬ mdChars <:+: t.data) :
    noteTitle (t ++ ".md") = t ∧ stripTrailingMd (t ++ ".md") = t := by
  constructor
  · show jsReplaceDel (t ++ ".md") ".md" = t
    apply String.ext
    show removeFirstAux (".md").data (t ++ ".md").data = t.data
    rw [String.data_append, mdChars_eq, removeFirstAux_append_self t.data h]
  · have hsuf : (".md").data.isSuffixOf (t ++ ".md").data = true := by
      rw [List.isSuffixOf_iff_suffix, String.data_append]
      exact List.suffix_append t.data (".md").data
    apply String.ext
    show (stripTrailingMd (t ++ ".md")).data = t.data
    rw [stripTrailingMd, if_pos hsuf]
    show ((t ++ ".md").data.take ((t ++ ".md").data.length - 3)) = t.data
    rw [String.data_append]
    rw [List.take_left' (by simp [mdChars_eq, mdChars])]

theorem noteTitle_strips_extension_witness :
    noteTitle ("note" ++ ".md") = "note" ∧
      stripTrailingMd ("note" ++ ".md") = "note" :=
  noteTitle_strips_extension "note" (by decide)

/-- Every title in the output of `searchLoop` comes from the accumulator
or from a file passing the candidate filter, through `noteTitle`. -/
theorem searchLoop_mem (content excludeTitle : String)
    (readFile : String → Option String) :
    ∀ (files acc l : List String),
      searchLoop content excludeTitle readFile files acc = some l →
      ∀ t ∈ l, t ∈ acc ∨
        ∃ file, isCandidate excludeTitle file = true ∧ t = noteTitle file := by
  intro files
  induction files with
  | nil =>
    intro acc l h t ht
    simp only [searchLoop, Option.some.injEq] at h
    exact Or.inl (h ▸ ht)
  | cons file rest ih =>
    intro acc l h t ht
    by_cases hc : isCandidate excludeTitle file = true
    · cases hrf : readFile file with
      | none => simp [searchLoop, hc, hrf] at h
      | some fileContent =>
        by_cases hm : matchesContent content fileContent = true
        · simp only [searchLoop, hc, hrf, hm, if_true] at h
          by_cases h2 : 2 ≤ (acc ++ [noteTitle file]).length
          · rw [if_pos h2] at h
            cases h
            rcases List.mem_append.mp ht with hta | htf
            · exact Or.inl hta
            · exact Or.inr ⟨file, hc, List.mem_singleton.mp htf⟩
          · rw [if_neg h2] at h
            rcases ih (acc ++ [noteTitle file]) l h t ht with hta | hex
            · rcases List.mem_append.mp hta with hta' | htf
              · exact Or.inl hta'
              · exact Or.inr ⟨file, hc, List.mem_singleton.mp htf⟩
            · exact Or.inr hex
        · simp only [searchLoop, hc, hrf, hm, if_true, Bool.false_eq_true,
            if_false] at h
          by_cases h2 : 2 ≤ acc.length
          · rw [if_pos h2] at h
            cases h
            exact Or.inl ht
          · rw [if_neg h2] at h
            exact ih acc l h t ht
    · simp only [searchLoop, hc, Bool.false_eq_true, if_false] at h
      exact ih acc l h t ht

/-- C4 counterexample: with excluded title `"ax.md"` and vault file
`"a.mdx.md"` (a different file name), the first-occurrence `.md` removal
produces exactly the excluded title, so the result contains
`excludeTitle`. -/
theorem searchRelatedNotes_exclude_cex :
    searchRelatedNotes "" "ax.md" (some ["a.mdx.md"]) (fun _ => some "") =
      some ["ax.md"] ∧ ("ax.md" : String) ∈ (["ax.md"] : List String) :=
  ⟨rfl, List.mem_singleton.mpr rfl⟩

/-- C4 amended: provided the excluded title does not itself contain
`".md"` as a substring, the result never contains `excludeTitle` (the
counterexample needs an exclude title containing `".md"`, matched by a
file carrying `".md"` twice). -/
theorem searchRelatedNotes_not_mem_exclude
    (content excludeTitle : String) (readdir : Option (List String))
    (readFile : String → Option String) (l : List String)
    (hx : ¬ mdChars <:+: excludeTitle.data)
    (h : searchRelatedNotes content excludeTitle readdir readFile = some l) :
    excludeTitle ∉ l := by
  intro hmem
  cases readdir with
  | none => exact Option.noConfusion h
  | some files =>
    rcases searchLoop_mem content excludeTitle readFile files [] l h
        excludeTitle hmem with hacc | ⟨file, hc, ht⟩
    · exact List.not_mem_nil excludeTitle hacc
    · have hparts : jsEndsWith file ".md" = true ∧
          ¬ file = excludeTitle ++ ".md" := by
        simpa [isCandidate] using hc
      have hsuf : mdChars.isSuffixOf file.data = true := by
        have := hparts.1
        rwa [jsEndsWith, mdChars_eq] at this
      have hrem : removeFirstAux mdChars file.data = excludeTitle.data := by
        have := congrArg String.data ht
        rw [noteTitle, jsReplaceDel, mdChars_eq] at this
        exact this.symm
      rcases removeFirstAux_suffix_cases file.data excludeTitle.data hsuf
          hrem with h1 | h2
      · exact hparts.2 (String.ext (by rw [h1, String.data_append, mdChars_eq]))
      · exact hx h2

theorem searchRelatedNotes_not_mem_exclude_witness :
    ("b" : String) ∉ (["a"] : List String) :=
  searchRelatedNotes_not_mem_exclude "" "b" (some ["a.md"])
    (fun _ => some "") ["a"] (by decide) (by decide)

/-- A filesystem operation against the vault directory. -/
inductive FsOp where
  | readdirOp : FsOp
  | readOp : String → FsOp
  | writeOp : String → String → FsOp
deriving DecidableEq

/-- Vault state: the directory listing (`none` when the directory cannot
be listed) and each file's content. -/
structure Vault where
  listing : Option (List String)
  contents : String → Option String

/-- Whether an operation only reads the vault. -/
def FsOp.isRead : FsOp → Bool
  | .readdirOp => true
  | .readOp _ => true
  | .writeOp _ _ => false

/-- The effect of one operation on the vault: reads leave it untouched, a
write stores the new content, adding the name to the listing when it is
absent. -/
def applyOp (v : Vault) : FsOp → Vault
  | .readdirOp => v
  | .readOp _ => v
  | .writeOp name c =>
    { listing := v.listing.map fun l => if name ∈ l then l else l ++ [name]
      contents := fun m => if m = name then some c else v.contents m }

/-- The effect of a sequence of operations on the vault. -/
def applyTrace (v : Vault) : List FsOp → Vault
  | [] => v
  | op :: ops => applyTrace (applyOp v op) ops

/-- `searchLoop` instrumented with the trace of filesystem operations the
source performs: one `readOp` per candidate file examined. -/
def searchLoopT (content excludeTitle : String)
    (readFile : String → Option String) :
    List String → List String → Option (List String) × List FsOp
  | [], relatedNotes => (some relatedNotes, [])
  | file :: rest, relatedNotes =>
    if isCandidate excludeTitle file then
      match readFile file with
      | none => (none, [FsOp.readOp file])
      | some fileContent =>
        let acc := if matchesContent content fileContent
                   then relatedNotes ++ [noteTitle file]
                   else relatedNotes
        if 2 ≤ acc.length then (some acc, [FsOp.readOp file])
        else
          let r := searchLoopT content excludeTitle readFile rest acc
          (r.1, FsOp.readOp file :: r.2)
    else searchLoopT content excludeTitle readFile rest relatedNotes

/-- `searchRelatedNotes` instrumented with its filesystem trace: the
initial `fs.readdir` followed by the per-candidate `fs.readFile` calls. -/
def searchRelatedNotesT (content excludeTitle : String) (v : Vault) :
    Option (List String) × List FsOp :=
  match v.listing with
  | none => (none, [FsOp.readdirOp])
  | some files =>
    let r := searchLoopT content excludeTitle v.contents files []
    (r.1, FsOp.readdirOp :: r.2)

theorem searchLoopT_all_read (content excludeTitle : String)
    (readFile : String → Option String) :
    ∀ (files acc : List String),
      ∀ op ∈ (searchLoopT content excludeTitle readFile files acc).2,
        op.isRead = true := by
  intro files
  induction files with
  | nil => intro acc op hop; simp [searchLoopT] at hop
  | cons file rest ih =>
    intro acc op hop
    by_cases hc : isCandidate excludeTitle file = true
    · cases hrf : readFile file with
      | none =>
        simp only [searchLoopT, hc, hrf, if_true] at hop
        rcases List.mem_singleton.mp hop with rfl
        rfl
      | some fileContent =>
        by_cases h2 : 2 ≤ (if matchesContent content fileContent
            then acc ++ [noteTitle file] else acc).length
        · simp only [searchLoopT, hc, hrf, if_true] at hop
          rw [if_pos h2] at hop
          rcases List.mem_singleton.mp hop with rfl
          rfl
        · simp only [searchLoopT, hc, hrf, if_true] at hop
          rw [if_neg h2] at hop
          rcases List.mem_cons.mp hop with rfl | hop2
          · rfl
          · exact ih _ op hop2
    · simp only [searchLoopT, hc, Bool.false_eq_true, if_false] at hop
      exact ih acc op hop

theorem applyOp_of_isRead (v : Vault) (op : FsOp) (h : op.isRead = true) :
    applyOp v op = v := by
  cases op with
  | readdirOp => rfl
  | readOp _ => rfl
  | writeOp _ _ => exact absurd h (by simp [FsOp.isRead])

theorem applyTrace_of_all_read (v : Vault) :
    ∀ tr : List FsOp, (∀ op ∈ tr, op.isRead = true) → applyTrace v tr = v := by
  intro tr
  induction tr generalizing v with
  | nil => intro _; rfl
  | cons op ops ih =>
    intro h
    rw [applyTrace, applyOp_of_isRead v op (h op (List.mem_cons_self _ _))]
    exact ih v fun o ho => h o (List.mem_cons_of_mem _ ho)

theorem searchLoopT_fst (content excludeTitle : String)
    (readFile : String → Option String) :
    ∀ (files acc : List String),
      (searchLoopT content excludeTitle readFile files acc).1 =
        searchLoop content excludeTitle readFile files acc := by
  intro files
  induction files with
  | nil => intro acc; rfl
  | cons file rest ih =>
    intro acc
    by_cases hc : isCandidate excludeTitle file = true
    · cases hrf : readFile file with
      | none => simp [searchLoopT, searchLoop, hc, hrf]
      | some fileContent =>
        by_cases h2 : 2 ≤ (if matchesContent content fileContent
            then acc ++ [noteTitle file] else acc).length
        · simp only [searchLoopT, searchLoop, hc, hrf, if_true]
          rw [if_pos h2, if_pos h2]
        · simp only [searchLoopT, searchLoop, hc, hrf, if_true]
          rw [if_neg h2, if_neg h2]
          exact ih _
    · simp only [searchLoopT, searchLoop, hc, Bool.false_eq_true, if_false]
      exact ih acc

/-- C9: the scan only reads the vault.  Every operation in the trace of a
call is a read, replaying the trace over the vault leaves the vault state
(listing and every file's content) unchanged, and the instrumented run
computes the same result as `searchRelatedNotes`. -/
theorem searchRelatedNotes_reads_only (content excludeTitle : String)
    (v : Vault) :
    (∀ op ∈ (searchRelatedNotesT content excludeTitle v).2, op.isRead = true) ∧
    applyTrace v (searchRelatedNotesT content excludeTitle v).2 = v ∧
    (searchRelatedNotesT content excludeTitle v).1 =
      searchRelatedNotes content excludeTitle v.listing v.contents := by
  have hall : ∀ op ∈ (searchRelatedNotesT content excludeTitle v).2,
      op.isRead = true := by
    intro op hop
    cases hl : v.listing with
    | none =>
      rw [searchRelatedNotesT, hl] at hop
      rcases List.mem_singleton.mp hop with rfl
      rfl
    | some files =>
      rw [searchRelatedNotesT, hl] at hop
      rcases List.mem_cons.mp hop with rfl | hop2
      · rfl
      · exact searchLoopT_all_read content excludeTitle v.contents files []
          op hop2
  refine ⟨hall, applyTrace_of_all_read v _ hall, ?_⟩
  cases hl : v.listing with
  | none => rw [searchRelatedNotesT, searchRelatedNotes, hl]
  | some files =>
    rw [searchRelatedNotesT, searchRelatedNotes, hl]
    exact searchLoopT_fst content excludeTitle v.contents files []

end ObsidianService
